import Mathlib

/-!
Shallow embedding of the client-side data pipeline of the media-publication
portal (`client/src/pages/Home.tsx`): name normalization, best-seller
reconciliation, the filter predicate, turnaround-time parsing, and the
stable sort comparator.  Strings are modelled as `List Char`
(UTF-16-code-unit sequences); JavaScript numbers that the pipeline
compares are modelled as `Int`.
-/

namespace MediaPortal

/-! ### Character classes, as tested by the regexes in `Home.tsx` -/

/-- Regex class `[a-z]`. -/
def isLowerA (c : Char) : Bool := 97 ≤ c.toNat && c.toNat ≤ 122

/-- Regex class `[A-Z]`. -/
def isUpperA (c : Char) : Bool := 65 ≤ c.toNat && c.toNat ≤ 90

/-- Regex class `[0-9]` (`\d`). -/
def isDigitA (c : Char) : Bool := 48 ≤ c.toNat && c.toNat ≤ 57

/-- Regex class `[a-z0-9]`. -/
def isAlnumLower (c : Char) : Bool := isLowerA c || isDigitA c

/-- JavaScript WhiteSpace ∪ LineTerminator: the set stripped by
`String.prototype.trim` and matched by `\s`. -/
def isJsWS (c : Char) : Bool :=
  c.toNat = 32 || c.toNat = 9 || c.toNat = 10 || c.toNat = 11 ||
  c.toNat = 12 || c.toNat = 13 || c.toNat = 160 || c.toNat = 0x1680 ||
  (0x2000 ≤ c.toNat && c.toNat ≤ 0x200a) || c.toNat = 0x2028 ||
  c.toNat = 0x2029 || c.toNat = 0x202f || c.toNat = 0x205f ||
  c.toNat = 0x3000 || c.toNat = 0xfeff

/-- JavaScript `String.prototype.toLowerCase`, restricted to ASCII (every character the
normalization pipeline keeps is ASCII lowercase/digit/space, so the ASCII
restriction is exact on all values the proofs evaluate). -/
def lowerChar (c : Char) : Char :=
  if isUpperA c then Char.ofNat (c.toNat + 32) else c

def lowerStr (l : List Char) : List Char := l.map lowerChar

/-- The step `.replace(/([a-z])([A-Z])/g, "$1 $2")`.  Because a match consumes a
lowercase-then-uppercase pair, two matches can never overlap, so the global
replace inserts a space between every adjacent (lowercase, uppercase) pair. -/
def camelSplit : List Char → List Char
  | [] => []
  | [c] => [c]
  | c₁ :: c₂ :: rest =>
    if isLowerA c₁ && isUpperA c₂ then c₁ :: ' ' :: camelSplit (c₂ :: rest)
    else c₁ :: camelSplit (c₂ :: rest)

/-- JavaScript `String.prototype.trim`. -/
def jsTrim (l : List Char) : List Char :=
  ((l.dropWhile isJsWS).reverse.dropWhile isJsWS).reverse

/-- The step `.replace(/&/g, "and")`. -/
def ampToAnd : List Char → List Char
  | [] => []
  | c :: cs =>
    if c = '&' then 'a' :: 'n' :: 'd' :: ampToAnd cs else c :: ampToAnd cs

/-- Replace every maximal run of characters satisfying `p` by the single
character `rep` (the shape of `.replace(/[^a-z0-9]+/g, " ")` and
`.replace(/\s+/g, " ")`).  `inRun` records whether the previous character
belonged to a run that has already been replaced. -/
def collapseRunsAux (p : Char → Bool) (rep : Char) : Bool → List Char → List Char
  | _, [] => []
  | inRun, c :: cs =>
    if p c then
      if inRun then collapseRunsAux p rep true cs
      else rep :: collapseRunsAux p rep true cs
    else c :: collapseRunsAux p rep false cs

def collapseRuns (p : Char → Bool) (rep : Char) (l : List Char) : List Char :=
  collapseRunsAux p rep false l

/-- Function `normalizeName` from `Home.tsx`:
camel-case split, trim, lowercase, `&`→`and`, collapse every run of
non-`[a-z0-9]` characters to one space, collapse whitespace, trim. -/
def normalizeName (s : String) : String :=
  ⟨jsTrim (collapseRuns isJsWS ' '
    (collapseRuns (fun c => !isAlnumLower c) ' '
      (ampToAnd (lowerStr (jsTrim (camelSplit s.toList))))))⟩

/-! ### Turnaround-time parsing (`parseTAT` in the sort comparator) -/

/-- Value of a digit run (`parseInt` on a `\d+` match). -/
def digitRunVal (l : List Char) : Nat :=
  l.foldl (fun n c => 10 * n + (c.toNat - 48)) 0

/-- The expression `s.match(/\d+/)` followed by `parseInt`: the first maximal digit run of
the string, parsed; `none` when the string has no digit. -/
def firstNum : List Char → Option Nat
  | [] => none
  | c :: cs =>
    if isDigitA c then some (digitRunVal (c :: cs.takeWhile isDigitA))
    else firstNum cs

/-- JavaScript `String.prototype.includes`: contiguous-substring containment. -/
def containsSub (hay needle : List Char) : Bool := decide (needle <:+: hay)

/-- Function `parseTAT` from the `tat` sort branch of `Home.tsx`. -/
def parseTAT (tat : String) : Int :=
  if tat = "" then 999
  else
    let low := lowerStr tat.toList
    if containsSub low ('d' :: 'a' :: 'y' :: []) then
      match firstNum low with
      | some n => (n : Int)
      | none => 1
    else if containsSub low ('w' :: 'e' :: 'e' :: 'k' :: []) then
      match firstNum low with
      | some n => (n : Int) * 7
      | none => 7
    else if containsSub low ('m' :: 'o' :: 'n' :: 't' :: 'h' :: []) then
      match firstNum low with
      | some n => (n : Int) * 30
      | none => 30
    else 999

/-! ### Data model (`Publication`, `TableData`, the query state) -/

structure Publication where
  id : Int
  name : String
  image : String
  genres : List String
  price : Int
  da : Int
  tat : String
  region : String
  sponsored : Bool
  indexed : Bool
  do_follow : Bool
  example_image : Bool
  niches : List String
  type : String
  lifespan : String
  mention_type : String
  status : String
  has_image : Bool
  deriving DecidableEq, Repr

structure TableData where
  publications : List Publication
  deriving DecidableEq

inductive SortColumn
  | price | name | tat | da | region
  deriving DecidableEq, Repr

inductive SortDir
  | asc | desc
  deriving DecidableEq, Repr

inductive ViewMode
  | all | bestSellers
  deriving DecidableEq, Repr

/-- The filter/sort state owned by the page (`useState` hooks). -/
structure QueryState where
  searchTerm : String
  selectedGenres : List String
  selectedRegions : List String
  priceMin : Int
  priceMax : Int
  selectedSponsored : String
  selectedIndexed : String
  selectedDoFollow : String
  sortColumn : SortColumn
  sortDirection : SortDir
  viewMode : ViewMode
  deriving DecidableEq

/-! ### Best-seller reconciliation -/

/-- Insertion into a JavaScript `Set`, modelled as a duplicate-free list in
insertion order. -/
def setInsert (l : List String) (x : String) : List String :=
  if l.contains x then l else l ++ [x]

/-- JavaScript `new Set(list)`. -/
def jsSetOf (l : List String) : List String := l.foldl setInsert []

/-- The set `new Set(names.map(normalizeName))` built by `ensureBestSellersLoaded`. -/
def buildBestSellerSet (names : List String) : List String :=
  jsSetOf (names.map normalizeName)

/-- Derived value `basePublications`: the full catalog, or the curated subset when in
best-sellers mode with a loaded set. -/
def basePublications (d : TableData) (mode : ViewMode)
    (bestSellerSet : Option (List String)) : List Publication :=
  match mode, bestSellerSet with
  | ViewMode.all, _ => d.publications
  | ViewMode.bestSellers, none => d.publications
  | ViewMode.bestSellers, some s =>
    d.publications.filter (fun p => s.contains (normalizeName p.name))

/-- Derived value `bestSellerMissingCount`: how many curated keys match no catalog record. -/
def bestSellerMissingCount (d : TableData) (mode : ViewMode)
    (bestSellerSet : Option (List String)) : Nat :=
  match mode, bestSellerSet with
  | ViewMode.bestSellers, some s =>
    let all := jsSetOf (d.publications.map (fun p => normalizeName p.name))
    (s.filter (fun n => !all.contains n)).length
  | _, _ => 0

/-! ### The filter predicate (`filteredPublications`, filter part) -/

def lowerString (s : String) : String := ⟨lowerStr s.toList⟩

def strIncludes (s sub : String) : Bool := containsSub s.toList sub.toList

/-- The search-term stage: keep when the lowercased term occurs in the
lowercased name or in a lowercased genre tag (skipped for an empty term). -/
def searchPass (q : QueryState) (pub : Publication) : Bool :=
  q.searchTerm == "" ||
    (strIncludes (lowerString pub.name) (lowerString q.searchTerm) ||
      pub.genres.any fun g => strIncludes (lowerString g) (lowerString q.searchTerm))

/-- The genre stage: with a non-empty selection, keep when some selected
genre occurs in the record's genre list. -/
def genrePass (q : QueryState) (pub : Publication) : Bool :=
  q.selectedGenres.isEmpty || q.selectedGenres.any fun g => pub.genres.contains g

/-- The region stage. -/
def regionPass (q : QueryState) (pub : Publication) : Bool :=
  q.selectedRegions.isEmpty || q.selectedRegions.contains pub.region

/-- The price stage: `if (pub.price < priceMin || pub.price > priceMax) return false`. -/
def pricePass (q : QueryState) (pub : Publication) : Bool :=
  !(pub.price < q.priceMin || pub.price > q.priceMax)

/-- The sponsored tri-state stage (`''` = unset, otherwise compare with `'Yes'`). -/
def sponsoredPass (q : QueryState) (pub : Publication) : Bool :=
  q.selectedSponsored == "" || pub.sponsored == (q.selectedSponsored == "Yes")

def indexedPass (q : QueryState) (pub : Publication) : Bool :=
  q.selectedIndexed == "" || pub.indexed == (q.selectedIndexed == "Yes")

def doFollowPass (q : QueryState) (pub : Publication) : Bool :=
  q.selectedDoFollow == "" || pub.do_follow == (q.selectedDoFollow == "Yes")

/-- The whole filter callback: each early `return false` of the source is one
conjunct, in source order. -/
def filterPred (q : QueryState) (pub : Publication) : Bool :=
  searchPass q pub && genrePass q pub && regionPass q pub && pricePass q pub &&
    sponsoredPass q pub && indexedPass q pub && doFollowPass q pub

/-! ### The sort comparator and the final pipeline -/

/-- A value the comparator compares: a JavaScript number or string
(for a fixed sort column all values have the same kind). -/
inductive SVal
  | num (n : Int)
  | str (s : List Char)
  deriving DecidableEq

/-- The comparable value the comparator derives for a record: `tat` goes
through `parseTAT`, string columns are lowercased, numeric columns are used
as-is. -/
def sortVal (col : SortColumn) (p : Publication) : SVal :=
  match col with
  | SortColumn.price => SVal.num p.price
  | SortColumn.da => SVal.num p.da
  | SortColumn.name => SVal.str (lowerStr p.name.toList)
  | SortColumn.region => SVal.str (lowerStr p.region.toList)
  | SortColumn.tat => SVal.num (parseTAT p.tat)

/-- JavaScript `<` on two same-kind values: numeric order on numbers,
code-unit lexicographic order on strings. -/
def jsLt (a b : SVal) : Bool :=
  match a, b with
  | SVal.num a, SVal.num b => decide (a < b)
  | SVal.str a, SVal.str b => decide (List.Lex (· < ·) a b)
  | _, _ => false

/-- The comparator passed to `filtered.sort`: `-1`/`1` by `<` and `>` on the
derived values (`aVal > bVal` is `jsLt bVal aVal` for same-kind values),
signs flipped for descending order. -/
def cmpRec (col : SortColumn) (dir : SortDir) (a b : Publication) : Int :=
  let av := sortVal col a
  let bv := sortVal col b
  if jsLt av bv then (if dir = SortDir.asc then -1 else 1)
  else if jsLt bv av then (if dir = SortDir.asc then 1 else -1)
  else 0

/-- JavaScript `Array.prototype.sort` with a consistent comparator: the (unique) stable
sort whose output is ordered by `comparator ≤ 0`. -/
def jsStableSort {α : Type} (c : α → α → Int) (l : List α) : List α :=
  List.insertionSort (fun a b => c a b ≤ 0) l

/-- Derived value `filteredPublications`: filter the base set, then sort. -/
def filteredPublications (d : TableData) (q : QueryState)
    (bestSellerSet : Option (List String)) : List Publication :=
  jsStableSort (cmpRec q.sortColumn q.sortDirection)
    ((basePublications d q.viewMode bestSellerSet).filter (filterPred q))

/-! ### Concrete instances used to evaluate the pipeline -/

/-- A record with the given queried fields and defaults everywhere else. -/
def mkPub (name : String) (genres : List String) (price : Int) (tat : String)
    (region : String) : Publication :=
  { id := 0, name := name, image := "", genres := genres, price := price, da := 0,
    tat := tat, region := region, sponsored := false, indexed := false,
    do_follow := false, example_image := false, niches := [], type := "",
    lifespan := "", mention_type := "", status := "", has_image := false }

/-- The initial query state of the page (`useState` defaults). -/
def defaultQuery : QueryState :=
  { searchTerm := "", selectedGenres := [], selectedRegions := [],
    priceMin := 0, priceMax := 85000, selectedSponsored := "",
    selectedIndexed := "", selectedDoFollow := "",
    sortColumn := SortColumn.price, sortDirection := SortDir.desc,
    viewMode := ViewMode.all }

/-- A record whose only genre is `"B"` (genre-filter counterexample). -/
def genreBPub : Publication := mkPub "x" (["B"]) 10 "" ""

/-- A record priced exactly at a price bound (price-stage counterexample). -/
def boundaryPub : Publication := mkPub "x" ([]) 5 "" ""

/-- A record with an empty turnaround-time text (sentinel 999). -/
def tatEmptyPub : Publication := mkPub "e" ([]) 0 "" ""

/-- A record with turnaround time "3 days". -/
def tatDaysPub : Publication := mkPub "d" ([]) 0 "3 days" ""

/-- A 100-record catalog with pairwise distinct normalized names
`p1 … p100` (reconciliation-diagnostic instance). -/
def reconCatalog : TableData :=
  ⟨(List.range 100).map (fun i => mkPub ("p" ++ Nat.repr (i + 1)) ([]) 0 "" "")⟩

/-- Five curated names, two of which (`zz`, `qq`) match no catalog record. -/
def reconNames : List String := ["p1", "P2", "p3", "zz", "qq"]

/-! ## Theorems -/

/-! ### Turnaround-time parsing -/

lemma containsSub_ne_nil {needle : List Char} (s : String)
    (hn : needle ≠ []) (h : containsSub (lowerStr s.toList) needle = true) :
    s ≠ "" := by
  intro he
  subst he
  rw [containsSub, decide_eq_true_eq] at h
  exact hn (List.eq_nil_of_infix_nil h)

lemma parseTAT_day (s : String)
    (h : containsSub (lowerStr s.toList) (['d', 'a', 'y']) = true) :
    parseTAT s = (match firstNum (lowerStr s.toList) with
      | some n => (n : Int)
      | none => 1) := by
  have hne : ¬(s = "") := containsSub_ne_nil s (by decide) h
  simp only [parseTAT, if_neg hne, h, if_pos]

lemma parseTAT_week (s : String)
    (hd : containsSub (lowerStr s.toList) (['d', 'a', 'y']) = false)
    (h : containsSub (lowerStr s.toList) (['w', 'e', 'e', 'k']) = true) :
    parseTAT s = (match firstNum (lowerStr s.toList) with
      | some n => (n : Int) * 7
      | none => 7) := by
  have hne : ¬(s = "") := containsSub_ne_nil s (by decide) h
  simp only [parseTAT, if_neg hne, hd, h, if_pos, Bool.false_eq_true, if_false]

lemma parseTAT_month (s : String)
    (hd : containsSub (lowerStr s.toList) (['d', 'a', 'y']) = false)
    (hw : containsSub (lowerStr s.toList) (['w', 'e', 'e', 'k']) = false)
    (h : containsSub (lowerStr s.toList) (['m', 'o', 'n', 't', 'h']) = true) :
    parseTAT s = (match firstNum (lowerStr s.toList) with
      | some n => (n : Int) * 30
      | none => 30) := by
  have hne : ¬(s = "") := containsSub_ne_nil s (by decide) h
  simp only [parseTAT, if_neg hne, hd, hw, h, if_pos, Bool.false_eq_true, if_false]

lemma parseTAT_other (s : String) (hne : s ≠ "")
    (hd : containsSub (lowerStr s.toList) (['d', 'a', 'y']) = false)
    (hw : containsSub (lowerStr s.toList) (['w', 'e', 'e', 'k']) = false)
    (hm : containsSub (lowerStr s.toList) (['m', 'o', 'n', 't', 'h']) = false) :
    parseTAT s = 999 := by
  simp only [parseTAT, if_neg hne, hd, hw, hm, Bool.false_eq_true, if_false]

/-- C2: `parseTAT` maps "3 days" to 3, "2 weeks" to 14, "1 month" to 30, ""
and "ASAP" to 999; for a string containing "day" it yields the first embedded
integer (1 without digits), else for "week" the first integer times 7
(7 without digits), else for "month" the first integer times 30 (30 without
digits), and 999 for every other non-empty string. -/
theorem claim_C2_duration_parsing :
    parseTAT "3 days" = 3 ∧ parseTAT "2 weeks" = 14 ∧ parseTAT "1 month" = 30 ∧
    parseTAT "" = 999 ∧ parseTAT "ASAP" = 999 ∧
    (∀ s : String, containsSub (lowerStr s.toList) (['d', 'a', 'y']) = true →
      parseTAT s = (match firstNum (lowerStr s.toList) with
        | some n => (n : Int)
        | none => 1)) ∧
    (∀ s : String, containsSub (lowerStr s.toList) (['d', 'a', 'y']) = false →
      containsSub (lowerStr s.toList) (['w', 'e', 'e', 'k']) = true →
      parseTAT s = (match firstNum (lowerStr s.toList) with
        | some n => (n : Int) * 7
        | none => 7)) ∧
    (∀ s : String, containsSub (lowerStr s.toList) (['d', 'a', 'y']) = false →
      containsSub (lowerStr s.toList) (['w', 'e', 'e', 'k']) = false →
      containsSub (lowerStr s.toList) (['m', 'o', 'n', 't', 'h']) = true →
      parseTAT s = (match firstNum (lowerStr s.toList) with
        | some n => (n : Int) * 30
        | none => 30)) ∧
    (∀ s : String, s ≠ "" →
      containsSub (lowerStr s.toList) (['d', 'a', 'y']) = false →
      containsSub (lowerStr s.toList) (['w', 'e', 'e', 'k']) = false →
      containsSub (lowerStr s.toList) (['m', 'o', 'n', 't', 'h']) = false →
      parseTAT s = 999) :=
  ⟨by decide, by decide, by decide, by decide, by decide,
    parseTAT_day, parseTAT_week, parseTAT_month, parseTAT_other⟩

/-- Witness for C2: the general day clause evaluated at "Same Day". -/
theorem claim_C2_duration_parsing_witness :
    containsSub (lowerStr ("Same Day").toList) (['d', 'a', 'y']) = true ∧
    parseTAT "Same Day" = 1 := by
  refine ⟨by decide, ?_⟩
  have h := claim_C2_duration_parsing.2.2.2.2.2.1 "Same Day" (by decide)
  simpa using h

/-- C10: the unit tests are ordered "day" before "week" before "month" on the
lowercased text, and the integer used is always the first digit run of the
whole string: a string containing both a day and a week word is parsed as
days using the string's first integer (`"1 week 2 days"` gives 1). -/
theorem claim_C10_unit_precedence :
    (∀ s : String, containsSub (lowerStr s.toList) (['d', 'a', 'y']) = true →
      containsSub (lowerStr s.toList) (['w', 'e', 'e', 'k']) = true →
      parseTAT s = (match firstNum (lowerStr s.toList) with
        | some n => (n : Int)
        | none => 1)) ∧
    (∀ s : String, containsSub (lowerStr s.toList) (['d', 'a', 'y']) = false →
      containsSub (lowerStr s.toList) (['w', 'e', 'e', 'k']) = true →
      containsSub (lowerStr s.toList) (['m', 'o', 'n', 't', 'h']) = true →
      parseTAT s = (match firstNum (lowerStr s.toList) with
        | some n => (n : Int) * 7
        | none => 7)) ∧
    parseTAT "1 week 2 days" = 1 :=
  ⟨fun s h _ => parseTAT_day s h, fun s hd hw _ => parseTAT_week s hd hw, by decide⟩

/-- Witness for C10: precedence clause evaluated at "1 week 2 days". -/
theorem claim_C10_unit_precedence_witness :
    containsSub (lowerStr ("1 week 2 days").toList) (['d', 'a', 'y']) = true ∧
    containsSub (lowerStr ("1 week 2 days").toList) (['w', 'e', 'e', 'k']) = true ∧
    parseTAT "1 week 2 days" = 1 := by
  refine ⟨by decide, by decide, ?_⟩
  have h := claim_C10_unit_precedence.1 "1 week 2 days" (by decide) (by decide)
  simpa using h

/-! ### Filter stages: genre, price, monotonicity -/

/-- C6: with a non-empty selection the genre stage keeps a record iff its
genre list meets the selection (OR semantics); an empty selection imposes no
constraint. -/
theorem claim_C6_genre_or_semantics :
    (∀ (q : QueryState) (pub : Publication), q.selectedGenres ≠ [] →
      (genrePass q pub = true ↔ ∃ g, g ∈ q.selectedGenres ∧ g ∈ pub.genres)) ∧
    (∀ (q : QueryState) (pub : Publication), q.selectedGenres = [] →
      genrePass q pub = true) := by
  constructor
  · intro q pub h
    simp [genrePass, List.any_eq_true, List.elem_iff, List.isEmpty_iff, h]
  · intro q pub h
    simp [genrePass, h]

/-- Witness for C6: a record with genres `{A, B}` is kept when only `B` is
selected. -/
theorem claim_C6_genre_or_semantics_witness :
    (["B"] : List String) ≠ [] ∧
    genrePass { defaultQuery with selectedGenres := ["B"] } genreBPub = true := by
  refine ⟨by decide, ?_⟩
  exact (claim_C6_genre_or_semantics.1 _ genreBPub (by decide)).mpr
    ⟨"B", by decide, by decide⟩

/-- Counterexample to C5 as stated: a record priced exactly at `priceMin` is
*not* in the result when another constraint (here the search term) rejects
it, so boundary-priced records are not "always included regardless of other
constraints". -/
theorem claim_C5_counterexample :
    boundaryPub.price =
      ({ defaultQuery with priceMin := 5, priceMax := 10, searchTerm := "z" }
        : QueryState).priceMin ∧
    filteredPublications ⟨[boundaryPub]⟩
      { defaultQuery with priceMin := 5, priceMax := 10, searchTerm := "z" }
      none = [] := by
  constructor
  · decide
  · decide

/-- C5 amended: the price stage keeps a record iff
`priceMin ≤ price ≤ priceMax` (inclusive at both ends); whenever the range is
non-degenerate (`priceMin ≤ priceMax`), a record priced exactly at either
bound always passes the price stage, so its membership in the result is
decided by the remaining stages alone. -/
theorem claim_C5_price_bounds_amended :
    (∀ (q : QueryState) (pub : Publication),
      pricePass q pub = true ↔ (q.priceMin ≤ pub.price ∧ pub.price ≤ q.priceMax)) ∧
    (∀ (q : QueryState) (pub : Publication), q.priceMin ≤ q.priceMax →
      (pub.price = q.priceMin ∨ pub.price = q.priceMax) →
      pricePass q pub = true ∧
        filterPred q pub =
          (searchPass q pub && genrePass q pub && regionPass q pub &&
            sponsoredPass q pub && indexedPass q pub && doFollowPass q pub)) := by
  have hiff : ∀ (q : QueryState) (pub : Publication),
      pricePass q pub = true ↔ (q.priceMin ≤ pub.price ∧ pub.price ≤ q.priceMax) := by
    intro q pub
    simp [pricePass, not_or, Int.not_lt]
  refine ⟨hiff, ?_⟩
  intro q pub hrange hbound
  have hpass : pricePass q pub = true := by
    rcases hbound with h | h <;> exact (hiff q pub).mpr ⟨by omega, by omega⟩
  refine ⟨hpass, ?_⟩
  simp [filterPred, hpass]

/-- Witness for C5 (amended): the boundary record passes the price stage of
the counterexample query and its exclusion is due to the other stages. -/
theorem claim_C5_price_bounds_amended_witness :
    pricePass { defaultQuery with priceMin := 5, priceMax := 10, searchTerm := "z" }
      boundaryPub = true := by
  exact (claim_C5_price_bounds_amended.2
    { defaultQuery with priceMin := 5, priceMax := 10, searchTerm := "z" }
    boundaryPub (by decide) (Or.inl (by decide))).1

lemma length_filter_mono {α : Type} (l : List α) (p p' : α → Bool)
    (h : ∀ a, p' a = true → p a = true) :
    (l.filter p').length ≤ (l.filter p).length := by
  induction l with
  | nil => simp
  | cons a t ih =>
    by_cases hp' : p' a = true
    · rw [List.filter_cons_of_pos hp', List.filter_cons_of_pos (h a hp')]
      simpa using ih
    · rw [List.filter_cons_of_neg (by simpa using hp')]
      by_cases hp : p a = true
      · rw [List.filter_cons_of_pos hp]
        exact Nat.le_succ_of_le ih
      · rw [List.filter_cons_of_neg (by simpa using hp)]
        exact ih

lemma filteredPublications_length (d : TableData) (q : QueryState)
    (bs : Option (List String)) :
    (filteredPublications d q bs).length =
      ((basePublications d q.viewMode bs).filter (filterPred q)).length := by
  simp [filteredPublications, jsStableSort]

/-- Counterexample to C4 as stated: selecting the additional genre `"B"`
(into the already non-empty selection `["A"]`) strictly increases the result
size, because the genre filter has OR semantics. -/
theorem claim_C4_counterexample :
    (filteredPublications ⟨[genreBPub]⟩
        { defaultQuery with selectedGenres := ["A"] } none).length <
      (filteredPublications ⟨[genreBPub]⟩
        { defaultQuery with selectedGenres := ["A", "B"] } none).length := by
  decide

/-- C4 amended: narrowing the price range (raising `priceMin` or lowering
`priceMax`) never increases the result size, and imposing a first genre on an
empty selection never increases it; but adding a further genre to a non-empty
selection relaxes the OR-filter, so it never *decreases* the size (and can
increase it, as the counterexample shows). -/
theorem claim_C4_monotonicity_amended :
    (∀ (d : TableData) (bs : Option (List String)) (q : QueryState) (m M : Int),
      q.priceMin ≤ m → M ≤ q.priceMax →
      (filteredPublications d { q with priceMin := m, priceMax := M } bs).length ≤
        (filteredPublications d q bs).length) ∧
    (∀ (d : TableData) (bs : Option (List String)) (q : QueryState) (g : String),
      q.selectedGenres = [] →
      (filteredPublications d { q with selectedGenres := [g] } bs).length ≤
        (filteredPublications d q bs).length) ∧
    (∀ (d : TableData) (bs : Option (List String)) (q : QueryState) (g : String),
      q.selectedGenres ≠ [] →
      (filteredPublications d q bs).length ≤
        (filteredPublications d
          { q with selectedGenres := q.selectedGenres ++ [g] } bs).length) := by
  refine ⟨?_, ?_, ?_⟩
  · intro d bs q m M hm hM
    rw [filteredPublications_length, filteredPublications_length]
    refine length_filter_mono _ _ _ ?_
    intro pub hp
    simp only [filterPred, Bool.and_eq_true] at hp ⊢
    refine ⟨⟨⟨⟨⟨⟨hp.1.1.1.1.1.1, hp.1.1.1.1.1.2⟩, hp.1.1.1.1.2⟩, ?_⟩,
      hp.1.1.2⟩, hp.1.2⟩, hp.2⟩
    have h := hp.1.1.1.2
    simp only [pricePass, Bool.not_eq_true', Bool.or_eq_false_iff,
      decide_eq_false_iff_not, Int.not_lt] at h ⊢
    omega
  · intro d bs q g hempty
    rw [filteredPublications_length, filteredPublications_length]
    refine length_filter_mono _ _ _ ?_
    intro pub hp
    simp only [filterPred, Bool.and_eq_true] at hp ⊢
    exact ⟨⟨⟨⟨⟨⟨hp.1.1.1.1.1.1, by simp [genrePass, hempty]⟩, hp.1.1.1.1.2⟩,
      hp.1.1.1.2⟩, hp.1.1.2⟩, hp.1.2⟩, hp.2⟩
  · intro d bs q g hne
    rw [filteredPublications_length, filteredPublications_length]
    refine length_filter_mono _ _ _ ?_
    intro pub hp
    simp only [filterPred, Bool.and_eq_true] at hp ⊢
    refine ⟨⟨⟨⟨⟨⟨hp.1.1.1.1.1.1, ?_⟩, hp.1.1.1.1.2⟩, hp.1.1.1.2⟩,
      hp.1.1.2⟩, hp.1.2⟩, hp.2⟩
    have h := hp.1.1.1.1.1.2
    simp only [genrePass, Bool.or_eq_true, List.isEmpty_iff, List.any_eq_true] at h ⊢
    rcases h with h | ⟨x, hx, hmem⟩
    · exact absurd h hne
    · exact Or.inr ⟨x, List.mem_append_left _ hx, hmem⟩

/-- Witness for C4 (amended): narrowing the default price range to `[5, 10]`
does not increase the counterexample catalog's result size. -/
theorem claim_C4_monotonicity_amended_witness :
    (filteredPublications ⟨[genreBPub]⟩
        { defaultQuery with priceMin := 5, priceMax := 10 } none).length ≤
      (filteredPublications ⟨[genreBPub]⟩ defaultQuery none).length := by
  exact claim_C4_monotonicity_amended.1 ⟨[genreBPub]⟩ none defaultQuery 5 10
    (by decide) (by decide)

/-! ### Name normalization: camel-case spacing and ampersand spelling -/

lemma isUpperA_eq_false_of_isLowerA {c : Char} (h : isLowerA c = true) :
    isUpperA c = false := by
  simp only [isLowerA, Bool.and_eq_true, decide_eq_true_eq] at h
  simp only [isUpperA, Bool.and_eq_false_iff, decide_eq_false_iff_not]
  omega

lemma camelSplit_insert (c₁ c₂ : Char) (h₁ : isLowerA c₁ = true)
    (h₂ : isUpperA c₂ = true) :
    ∀ l₁ l₂ : List Char,
      camelSplit (l₁ ++ c₁ :: c₂ :: l₂) = camelSplit (l₁ ++ c₁ :: ' ' :: c₂ :: l₂) := by
  intro l₁
  induction l₁ with
  | nil =>
    intro l₂
    have hsp : isLowerA ' ' = false := by decide
    have hspu : isUpperA ' ' = false := by decide
    simp [camelSplit, h₁, h₂, hsp, hspu]
  | cons x xs ih =>
    intro l₂
    cases xs with
    | nil =>
      have hx : isUpperA c₁ = false := isUpperA_eq_false_of_isLowerA h₁
      simpa [camelSplit, hx] using ih l₂
    | cons y ys =>
      by_cases hc : (isLowerA x && isUpperA y) = true
      · simpa [camelSplit, hc] using ih l₂
      · simpa [camelSplit, hc] using ih l₂

/-- C1: inserting a space at any lowercase→uppercase boundary does not change
the normalized key, and in particular `"VentureBeat"`/`"Venture Beat"` and
`"Rolling & Stone"`/`"rolling and stone"` normalize to the same key
(`"venture beat"` and `"rolling and stone"` respectively). -/
theorem claim_C1_name_normalization :
    (∀ (l₁ l₂ : List Char) (c₁ c₂ : Char), isLowerA c₁ = true → isUpperA c₂ = true →
      normalizeName ⟨l₁ ++ c₁ :: c₂ :: l₂⟩ = normalizeName ⟨l₁ ++ c₁ :: ' ' :: c₂ :: l₂⟩) ∧
    normalizeName "VentureBeat" = normalizeName "Venture Beat" ∧
    normalizeName "Rolling & Stone" = normalizeName "rolling and stone" ∧
    normalizeName "VentureBeat" = "venture beat" ∧
    normalizeName "Rolling & Stone" = "rolling and stone" := by
  refine ⟨?_, by decide, by decide, by decide, by decide⟩
  intro l₁ l₂ c₁ c₂ h₁ h₂
  unfold normalizeName
  rw [show (⟨l₁ ++ c₁ :: c₂ :: l₂⟩ : String).toList = l₁ ++ c₁ :: c₂ :: l₂ from rfl,
    show (⟨l₁ ++ c₁ :: ' ' :: c₂ :: l₂⟩ : String).toList = l₁ ++ c₁ :: ' ' :: c₂ :: l₂
      from rfl,
    camelSplit_insert c₁ c₂ h₁ h₂ l₁ l₂]

/-- Witness for C1: the camel-boundary clause applied to `"aB"` / `"a B"`. -/
theorem claim_C1_name_normalization_witness :
    isLowerA 'a' = true ∧ isUpperA 'B' = true ∧
    normalizeName ⟨['a', 'B']⟩ = normalizeName ⟨['a', ' ', 'B']⟩ := by
  exact ⟨by decide, by decide,
    claim_C1_name_normalization.1 [] [] 'a' 'B' (by decide) (by decide)⟩

/-! ### The comparator is a total preorder on each sort column -/

/-- Two comparator values of the same kind (the comparator only ever sees
same-kind pairs, because `sortVal` is kind-homogeneous per column). -/
def SameKind : SVal → SVal → Prop
  | SVal.num _, SVal.num _ => True
  | SVal.str _, SVal.str _ => True
  | _, _ => False

lemma sortVal_sameKind (col : SortColumn) (a b : Publication) :
    SameKind (sortVal col a) (sortVal col b) := by
  cases col <;> trivial

lemma lexLt_irrefl (s : List Char) : ¬ List.Lex (· < ·) s s := by
  have h : IsStrictTotalOrder (List Char) (List.Lex (· < ·)) := inferInstance
  exact @irrefl _ _ h.toIsStrictOrder.toIsIrrefl s

lemma lexLt_trans {a b c : List Char} (h₁ : List.Lex (· < ·) a b)
    (h₂ : List.Lex (· < ·) b c) : List.Lex (· < ·) a c := by
  have h : IsStrictTotalOrder (List Char) (List.Lex (· < ·)) := inferInstance
  exact h.toIsStrictOrder.toIsTrans.trans _ _ _ h₁ h₂

lemma lexLt_trichotomy (a b : List Char) :
    List.Lex (· < ·) a b ∨ a = b ∨ List.Lex (· < ·) b a := by
  have h : IsStrictTotalOrder (List Char) (List.Lex (· < ·)) := inferInstance
  exact @trichotomous _ _ h.toIsTrichotomous a b

lemma jsLt_irrefl (a : SVal) : jsLt a a = false := by
  cases a with
  | num n => simp [jsLt]
  | str s => simpa [jsLt] using lexLt_irrefl s

lemma jsLt_asymm {a b : SVal} (h : jsLt a b = true) : jsLt b a = false := by
  cases a with
  | num m =>
    cases b with
    | num n =>
      simp only [jsLt, decide_eq_true_eq] at h
      simp only [jsLt, decide_eq_false_iff_not]
      omega
    | str t => simp [jsLt]
  | str s =>
    cases b with
    | num n => simp [jsLt] at h
    | str t =>
      simp only [jsLt, decide_eq_true_eq] at h
      simp only [jsLt, decide_eq_false_iff_not]
      exact fun h' => lexLt_irrefl s (lexLt_trans h h')

lemma jsLt_eq_of_not_lt {a b : SVal} (hk : SameKind a b)
    (h₁ : jsLt a b = false) (h₂ : jsLt b a = false) : a = b := by
  cases a with
  | num m =>
    cases b with
    | num n =>
      simp only [jsLt, decide_eq_false_iff_not] at h₁ h₂
      have : m = n := by omega
      rw [this]
    | str t => exact absurd hk (by simp [SameKind])
  | str s =>
    cases b with
    | num n => exact absurd hk (by simp [SameKind])
    | str t =>
      simp only [jsLt, decide_eq_false_iff_not] at h₁ h₂
      rcases lexLt_trichotomy s t with h | h | h
      · exact absurd h h₁
      · exact congrArg SVal.str h
      · exact absurd h h₂

lemma jsLt_false_trans {a b c : SVal} (hab : SameKind a b) (hbc : SameKind b c)
    (h₁ : jsLt a b = false) (h₂ : jsLt b c = false) : jsLt a c = false := by
  cases a with
  | num x =>
    cases b with
    | num y =>
      cases c with
      | num z =>
        simp only [jsLt, decide_eq_false_iff_not] at h₁ h₂ ⊢
        omega
      | str t => exact absurd hbc (by simp [SameKind])
    | str t => exact absurd hab (by simp [SameKind])
  | str s =>
    cases b with
    | num y => exact absurd hab (by simp [SameKind])
    | str t =>
      cases c with
      | num z => exact absurd hbc (by simp [SameKind])
      | str u =>
        simp only [jsLt, decide_eq_false_iff_not] at h₁ h₂ ⊢
        intro hac
        rcases lexLt_trichotomy s t with h | h | h
        · exact h₁ h
        · subst h
          exact h₂ hac
        · exact h₂ (lexLt_trans h hac)

lemma cmpRec_le_zero_asc (col : SortColumn) (a b : Publication) :
    cmpRec col SortDir.asc a b ≤ 0 ↔
      jsLt (sortVal col b) (sortVal col a) = false := by
  simp only [cmpRec]
  rcases hab : jsLt (sortVal col a) (sortVal col b) with _ | _
  · rcases hba : jsLt (sortVal col b) (sortVal col a) with _ | _ <;> simp
  · simp [jsLt_asymm hab]

lemma cmpRec_le_zero_desc (col : SortColumn) (a b : Publication) :
    cmpRec col SortDir.desc a b ≤ 0 ↔
      jsLt (sortVal col a) (sortVal col b) = false := by
  simp only [cmpRec]
  rcases hab : jsLt (sortVal col a) (sortVal col b) with _ | _
  · rcases hba : jsLt (sortVal col b) (sortVal col a) with _ | _ <;> simp
  · simp

lemma cmpRec_le_zero_of_eq {col : SortColumn} (dir : SortDir) {a b : Publication}
    (h : sortVal col a = sortVal col b) :
    cmpRec col dir a b ≤ 0 := by
  simp only [cmpRec, h, jsLt_irrefl, Bool.false_eq_true, if_false]
  omega

lemma cmpRec_total (col : SortColumn) (dir : SortDir) (a b : Publication) :
    cmpRec col dir a b ≤ 0 ∨ cmpRec col dir b a ≤ 0 := by
  cases dir
  · rw [cmpRec_le_zero_asc, cmpRec_le_zero_asc]
    rcases h : jsLt (sortVal col b) (sortVal col a) with _ | _
    · exact Or.inl rfl
    · exact Or.inr (jsLt_asymm h)
  · rw [cmpRec_le_zero_desc, cmpRec_le_zero_desc]
    rcases h : jsLt (sortVal col a) (sortVal col b) with _ | _
    · exact Or.inl rfl
    · exact Or.inr (jsLt_asymm h)

lemma cmpRec_trans (col : SortColumn) (dir : SortDir) (a b c : Publication) :
    cmpRec col dir a b ≤ 0 → cmpRec col dir b c ≤ 0 → cmpRec col dir a c ≤ 0 := by
  cases dir
  · rw [cmpRec_le_zero_asc, cmpRec_le_zero_asc, cmpRec_le_zero_asc]
    intro h₁ h₂
    exact jsLt_false_trans (sortVal_sameKind col c b) (sortVal_sameKind col b a) h₂ h₁
  · rw [cmpRec_le_zero_desc, cmpRec_le_zero_desc, cmpRec_le_zero_desc]
    intro h₁ h₂
    exact jsLt_false_trans (sortVal_sameKind col a b) (sortVal_sameKind col b c) h₁ h₂

lemma basePublications_sublist (d : TableData) (m : ViewMode)
    (bs : Option (List String)) : List.Sublist (basePublications d m bs) d.publications := by
  cases m <;> cases bs <;> first
    | exact List.Sublist.refl _
    | exact List.filter_sublist _

/-! ### Sort stability and the turnaround-time sentinel -/

/-- C7: the final sort is stable: two surviving records with equal comparable
sort-key values keep their relative order (which is their catalog order,
filtering being order-preserving), for every sort key and both directions. -/
theorem claim_C7_sort_stability :
    ∀ (d : TableData) (bs : Option (List String)) (q : QueryState)
      (a b : Publication),
      List.Sublist [a, b] ((basePublications d q.viewMode bs).filter (filterPred q)) →
      sortVal q.sortColumn a = sortVal q.sortColumn b →
      List.Sublist [a, b] d.publications ∧
        List.Sublist [a, b] (filteredPublications d q bs) := by
  intro d bs q a b hsub heq
  refine ⟨hsub.trans ((List.filter_sublist _).trans
    (basePublications_sublist d q.viewMode bs)), ?_⟩
  exact List.pair_sublist_insertionSort (cmpRec_le_zero_of_eq q.sortDirection heq) hsub

/-- Witness for C7: two equal-priced records keep their catalog order under
the default (price, descending) sort. -/
theorem claim_C7_sort_stability_witness :
    List.Sublist [tatEmptyPub, tatDaysPub]
      ((basePublications ⟨[tatEmptyPub, tatDaysPub]⟩ defaultQuery.viewMode none).filter
        (filterPred defaultQuery)) ∧
    sortVal defaultQuery.sortColumn tatEmptyPub =
      sortVal defaultQuery.sortColumn tatDaysPub ∧
    List.Sublist [tatEmptyPub, tatDaysPub]
      (filteredPublications ⟨[tatEmptyPub, tatDaysPub]⟩ defaultQuery none) := by
  refine ⟨by decide, by decide, ?_⟩
  exact (claim_C7_sort_stability ⟨[tatEmptyPub, tatDaysPub]⟩ none defaultQuery
    tatEmptyPub tatDaysPub (by decide) (by decide)).2

/-- Counterexample to C3 as stated: sorting by turnaround time *descending*
places the empty-TAT record (sentinel 999) first, before the parseable
"3 days" record — sentinel records do not sort last in both directions. -/
theorem claim_C3_counterexample :
    parseTAT tatEmptyPub.tat = 999 ∧ parseTAT tatDaysPub.tat = 3 ∧
    filteredPublications ⟨[tatDaysPub, tatEmptyPub]⟩
      { defaultQuery with
        sortColumn := SortColumn.tat, sortDirection := SortDir.desc }
      none = [tatEmptyPub, tatDaysPub] := by
  refine ⟨by decide, by decide, by decide⟩

/-- C3 amended: in an ascending turnaround-time sort every record whose text
parses to the 999 sentinel appears after every record with parsed value
below 999; in a descending sort such records appear before them (999 is just
a large comparable value, so descending order reverses its placement). -/
theorem claim_C3_tat_sentinel_amended :
    ∀ (d : TableData) (bs : Option (List String)) (q : QueryState),
      q.sortColumn = SortColumn.tat →
      ((q.sortDirection = SortDir.asc →
        (filteredPublications d q bs).Pairwise
          (fun x y => ¬(parseTAT x.tat = 999 ∧ parseTAT y.tat < 999))) ∧
       (q.sortDirection = SortDir.desc →
        (filteredPublications d q bs).Pairwise
          (fun x y => ¬(parseTAT x.tat < 999 ∧ parseTAT y.tat = 999)))) := by
  intro d bs q hcol
  have inst1 : IsTotal Publication
      (fun a b => cmpRec q.sortColumn q.sortDirection a b ≤ 0) :=
    ⟨cmpRec_total q.sortColumn q.sortDirection⟩
  have inst2 : IsTrans Publication
      (fun a b => cmpRec q.sortColumn q.sortDirection a b ≤ 0) :=
    ⟨cmpRec_trans q.sortColumn q.sortDirection⟩
  have hs : (filteredPublications d q bs).Pairwise
      (fun a b => cmpRec q.sortColumn q.sortDirection a b ≤ 0) := by
    exact @List.sorted_insertionSort Publication _ _ inst1 inst2 _
  constructor
  · intro hdir
    refine hs.imp ?_
    intro a b hab
    rw [hcol, hdir, cmpRec_le_zero_asc] at hab
    simp only [sortVal, jsLt, decide_eq_false_iff_not, Int.not_lt] at hab
    rintro ⟨ha, hb⟩
    rw [ha] at hab
    omega
  · intro hdir
    refine hs.imp ?_
    intro a b hab
    rw [hcol, hdir, cmpRec_le_zero_desc] at hab
    simp only [sortVal, jsLt, decide_eq_false_iff_not, Int.not_lt] at hab
    rintro ⟨ha, hb⟩
    rw [hb] at hab
    omega

/-- Witness for C3 (amended): in the counterexample catalog sorted
descending, the sentinel record legitimately precedes the parseable one. -/
theorem claim_C3_tat_sentinel_amended_witness :
    (filteredPublications ⟨[tatDaysPub, tatEmptyPub]⟩
      { defaultQuery with
        sortColumn := SortColumn.tat, sortDirection := SortDir.desc }
      none).Pairwise
      (fun x y => ¬(parseTAT x.tat < 999 ∧ parseTAT y.tat = 999)) := by
  exact (claim_C3_tat_sentinel_amended ⟨[tatDaysPub, tatEmptyPub]⟩ none
    { defaultQuery with sortColumn := SortColumn.tat, sortDirection := SortDir.desc }
    rfl).2 rfl

/-! ### Reconciliation diagnostic -/

lemma mem_foldl_setInsert (l : List String) (x : String) :
    ∀ acc, x ∈ l.foldl setInsert acc ↔ x ∈ acc ∨ x ∈ l := by
  induction l with
  | nil => intro acc; simp
  | cons a t ih =>
    intro acc
    rw [List.foldl_cons, ih]
    have hins : x ∈ setInsert acc a ↔ x ∈ acc ∨ x = a := by
      unfold setInsert
      by_cases h : acc.contains a = true
      · rw [if_pos h]
        have ha : a ∈ acc := List.elem_iff.mp h
        constructor
        · exact Or.inl
        · rintro (hx | rfl)
          · exact hx
          · exact ha
      · rw [if_neg h]
        simp
    rw [hins]
    simp only [List.mem_cons]
    tauto

lemma mem_jsSetOf (l : List String) (x : String) : x ∈ jsSetOf l ↔ x ∈ l := by
  rw [jsSetOf, mem_foldl_setInsert]
  simp

set_option maxRecDepth 8192 in
/-- C8: the missing-count diagnostic counts exactly the index keys matched by
no catalog record's normalized name; on the concrete scenario — 5 curated
names against a 100-record catalog, 2 of them unresolvable — it returns 2
and the curated base set has 3 records. -/
theorem claim_C8_reconciliation_diagnostic :
    (∀ (d : TableData) (s : List String),
      bestSellerMissingCount d ViewMode.bestSellers (some s) =
        (s.filter (fun n =>
          decide (¬ ∃ p, p ∈ d.publications ∧ normalizeName p.name = n))).length) ∧
    reconNames.length = 5 ∧
    reconCatalog.publications.length = 100 ∧
    bestSellerMissingCount reconCatalog ViewMode.bestSellers
      (some (buildBestSellerSet reconNames)) = 2 ∧
    (basePublications reconCatalog ViewMode.bestSellers
      (some (buildBestSellerSet reconNames))).length = 3 := by
  refine ⟨?_, by decide, by decide, by decide, by decide⟩
  intro d s
  simp only [bestSellerMissingCount]
  congr 1
  apply List.filter_congr
  intro n _
  have hiff : (jsSetOf (d.publications.map fun p => normalizeName p.name)).contains n
      = true ↔ ∃ p, p ∈ d.publications ∧ normalizeName p.name = n := by
    rw [List.elem_iff, mem_jsSetOf, List.mem_map]
  rcases hc : (jsSetOf (d.publications.map fun p => normalizeName p.name)).contains n
    with _ | _
  · have hP : ¬ ∃ p, p ∈ d.publications ∧ normalizeName p.name = n := by
      intro hex
      rw [← hiff] at hex
      rw [hc] at hex
      exact Bool.false_ne_true hex
    have hnm : ¬ n ∈ jsSetOf (d.publications.map fun p => normalizeName p.name) := by
      intro hm
      exact Bool.false_ne_true (hc ▸ List.elem_iff.mpr hm)
    simp [hP, hnm]
  · have hP := hiff.mp hc
    have hm : n ∈ jsSetOf (d.publications.map fun p => normalizeName p.name) :=
      List.elem_iff.mp hc
    simp [hP, hm]

/-! ### Idempotence of name normalization -/

lemma alnum_not_upper {c : Char} (h : isAlnumLower c = true) : isUpperA c = false := by
  simp only [isAlnumLower, isLowerA, isDigitA, Bool.or_eq_true, Bool.and_eq_true,
    decide_eq_true_eq] at h
  simp only [isUpperA, Bool.and_eq_false_iff, decide_eq_false_iff_not]
  omega

lemma alnum_not_ws {c : Char} (h : isAlnumLower c = true) : isJsWS c = false := by
  simp only [isAlnumLower, isLowerA, isDigitA, Bool.or_eq_true, Bool.and_eq_true,
    decide_eq_true_eq] at h
  simp only [isJsWS, Bool.or_eq_false_iff, Bool.and_eq_false_iff,
    decide_eq_false_iff_not]
  omega

lemma canonChar_not_upper {c : Char} (h : isAlnumLower c = true ∨ c = ' ') :
    isUpperA c = false := by
  rcases h with h | h
  · exact alnum_not_upper h
  · subst h
    decide

lemma canonChar_not_amp {c : Char} (h : isAlnumLower c = true ∨ c = ' ') :
    ¬(c = '&') := by
  intro he
  subst he
  rcases h with h | h
  · exact absurd h (by decide)
  · exact absurd h (by decide)

lemma canonChar_ws_eq_space {c : Char} (h : isAlnumLower c = true ∨ c = ' ')
    (hw : isJsWS c = true) : c = ' ' := by
  rcases h with h | h
  · rw [alnum_not_ws h] at hw
    exact absurd hw (by simp)
  · exact h

lemma camelSplit_eq_self : ∀ l : List Char, (∀ c ∈ l, isUpperA c = false) →
    camelSplit l = l := by
  intro l
  induction l with
  | nil => intro _; rfl
  | cons c cs ih =>
    intro h
    cases cs with
    | nil => rfl
    | cons c₂ rest =>
      have h₂ : isUpperA c₂ = false := h c₂ (by simp)
      have hcond : (isLowerA c && isUpperA c₂) = false := by simp [h₂]
      have htail : camelSplit (c₂ :: rest) = c₂ :: rest := by
        refine ih ?_
        intro x hx
        exact h x (List.mem_cons_of_mem c hx)
      rw [camelSplit, hcond]
      simp [htail]

lemma dropWhile_eq_self_of_head (p : Char → Bool) (l : List Char)
    (h : ∀ c, l.head? = some c → p c = false) : l.dropWhile p = l := by
  cases l with
  | nil => rfl
  | cons a t =>
    rw [List.dropWhile_cons, h a rfl]
    simp

lemma jsTrim_eq_self (l : List Char)
    (hh : ∀ c, l.head? = some c → isJsWS c = false)
    (hl : ∀ c, l.getLast? = some c → isJsWS c = false) : jsTrim l = l := by
  unfold jsTrim
  rw [dropWhile_eq_self_of_head _ _ hh]
  rw [dropWhile_eq_self_of_head _ _ (by rw [List.head?_reverse]; exact hl)]
  exact List.reverse_reverse l

lemma lowerStr_eq_self : ∀ l : List Char, (∀ c ∈ l, isUpperA c = false) →
    lowerStr l = l := by
  intro l
  induction l with
  | nil => intro _; rfl
  | cons c cs ih =>
    intro h
    have hc : lowerChar c = c := by
      unfold lowerChar
      rw [h c (by simp)]
      simp
    have htail := ih (fun x hx => h x (List.mem_cons_of_mem c hx))
    simp only [lowerStr, List.map_cons, hc]
    rw [lowerStr] at htail
    rw [htail]

lemma ampToAnd_eq_self : ∀ l : List Char, (∀ c ∈ l, ¬(c = '&')) →
    ampToAnd l = l := by
  intro l
  induction l with
  | nil => intro _; rfl
  | cons c cs ih =>
    intro h
    rw [ampToAnd, if_neg (h c (by simp))]
    rw [ih (fun x hx => h x (List.mem_cons_of_mem c hx))]

lemma collapseRunsAux_head_not (p : Char → Bool) (rep : Char) (cs : List Char)
    (h : ∀ c, cs.head? = some c → p c = false) (b₁ b₂ : Bool) :
    collapseRunsAux p rep b₁ cs = collapseRunsAux p rep b₂ cs := by
  cases cs with
  | nil => rfl
  | cons d ds =>
    rw [collapseRunsAux, collapseRunsAux, h d rfl]
    simp

lemma collapseRuns_eq_self (p : Char → Bool) (rep : Char) :
    ∀ l : List Char, (∀ c ∈ l, p c = true → c = rep) →
    l.Chain' (fun a b => ¬(p a = true ∧ p b = true)) →
    collapseRuns p rep l = l := by
  intro l
  induction l with
  | nil => intro _ _; rfl
  | cons c cs ih =>
    intro hrep hch
    have hch' : cs.Chain' (fun a b => ¬(p a = true ∧ p b = true)) :=
      (List.chain'_cons'.mp hch).2
    have hrep' : ∀ x ∈ cs, p x = true → x = rep :=
      fun x hx => hrep x (List.mem_cons_of_mem c hx)
    rcases hpc : p c with _ | _
    · rw [collapseRuns, collapseRunsAux, hpc]
      simp only [Bool.false_eq_true, if_false]
      rw [show collapseRunsAux p rep false cs = collapseRuns p rep cs from rfl,
        ih hrep' hch']
    · have hc : c = rep := hrep c (by simp) hpc
      have hhead : ∀ x, cs.head? = some x → p x = false := by
        intro x hx
        have hmemrel := (List.chain'_cons'.mp hch).1 x hx
        rcases hpx : p x with _ | _
        · rfl
        · exact absurd ⟨hpc, hpx⟩ hmemrel
      rw [collapseRuns, collapseRunsAux, hpc]
      simp only [if_true]
      rw [collapseRunsAux_head_not p rep cs hhead true false]
      rw [show collapseRunsAux p rep false cs = collapseRuns p rep cs from rfl,
        ih hrep' hch', hc]
      simp

lemma mem_collapseRunsAux (p : Char → Bool) (rep : Char) :
    ∀ (l : List Char) (b : Bool) (c : Char), c ∈ collapseRunsAux p rep b l →
      c = rep ∨ (c ∈ l ∧ p c = false) := by
  intro l
  induction l with
  | nil => intro b c hc; exact absurd hc (by simp [collapseRunsAux])
  | cons d ds ih =>
    intro b c hc
    rw [collapseRunsAux] at hc
    rcases hpd : p d with _ | _
    · rw [hpd] at hc
      simp only [Bool.false_eq_true, if_false, List.mem_cons] at hc
      rcases hc with rfl | hc
      · exact Or.inr ⟨by simp, hpd⟩
      · rcases ih false c hc with h | ⟨hm, hp⟩
        · exact Or.inl h
        · exact Or.inr ⟨List.mem_cons_of_mem d hm, hp⟩
    · rw [hpd] at hc
      simp only [if_true] at hc
      have hfrom : c = rep ∨ c ∈ collapseRunsAux p rep true ds := by
        cases b with
        | true => exact Or.inr hc
        | false =>
          rcases List.mem_cons.mp hc with rfl | hc'
          · exact Or.inl rfl
          · exact Or.inr hc'
      rcases hfrom with rfl | hc'
      · exact Or.inl rfl
      · rcases ih true c hc' with h | ⟨hm, hp⟩
        · exact Or.inl h
        · exact Or.inr ⟨List.mem_cons_of_mem d hm, hp⟩

lemma collapseRunsAux_true_head (p : Char → Bool) (rep : Char) :
    ∀ (l : List Char) (c : Char),
      (collapseRunsAux p rep true l).head? = some c → p c = false := by
  intro l
  induction l with
  | nil => intro c hc; exact absurd hc (by simp [collapseRunsAux])
  | cons d ds ih =>
    intro c hc
    rw [collapseRunsAux] at hc
    rcases hpd : p d with _ | _
    · rw [hpd] at hc
      simp only [Bool.false_eq_true, if_false, List.head?_cons, Option.some_inj] at hc
      rw [← hc]
      exact hpd
    · rw [hpd] at hc
      simp only [if_true] at hc
      exact ih c hc

lemma collapseRunsAux_chain (p : Char → Bool) (rep : Char) :
    ∀ (l : List Char) (b : Bool),
      (collapseRunsAux p rep b l).Chain' (fun a b' => ¬(p a = true ∧ p b' = true)) := by
  intro l
  induction l with
  | nil => intro b; simp [collapseRunsAux]
  | cons d ds ih =>
    intro b
    rw [collapseRunsAux]
    rcases hpd : p d with _ | _
    · simp only [Bool.false_eq_true, if_false]
      refine List.chain'_cons'.mpr ⟨?_, ih false⟩
      intro y _
      rw [hpd]
      simp
    · simp only [if_true]
      cases b with
      | true => exact ih true
      | false =>
        refine List.chain'_cons'.mpr ⟨?_, ih true⟩
        intro y hy
        have := collapseRunsAux_true_head p rep ds y hy
        rw [this]
        simp

lemma head?_dropWhile_false (p : Char → Bool) :
    ∀ (l : List Char) (c : Char), (l.dropWhile p).head? = some c → p c = false := by
  intro l
  induction l with
  | nil => intro c hc; exact absurd hc (by simp)
  | cons a t ih =>
    intro c hc
    rw [List.dropWhile_cons] at hc
    rcases hpa : p a with _ | _
    · rw [hpa] at hc
      simp only [Bool.false_eq_true, if_false, List.head?_cons, Option.some_inj] at hc
      rw [← hc]
      exact hpa
    · rw [hpa] at hc
      simp only [if_true] at hc
      exact ih c hc

lemma getLast?_dropWhile_of_ne (p : Char → Bool) (l : List Char)
    (h : l.dropWhile p ≠ []) : (l.dropWhile p).getLast? = l.getLast? := by
  obtain ⟨t, ht⟩ := List.dropWhile_suffix (l := l) p
  conv_rhs => rw [← ht]
  exact (List.getLast?_append_of_ne_nil t h).symm

lemma jsTrim_head (l : List Char) :
    ∀ c, (jsTrim l).head? = some c → isJsWS c = false := by
  intro c hc
  unfold jsTrim at hc
  rw [List.head?_reverse] at hc
  have hne : (l.dropWhile isJsWS).reverse.dropWhile isJsWS ≠ [] := by
    intro he
    rw [he] at hc
    exact absurd hc (by simp)
  rw [getLast?_dropWhile_of_ne _ _ hne, List.getLast?_reverse] at hc
  exact head?_dropWhile_false _ _ _ hc

lemma jsTrim_getLast (l : List Char) :
    ∀ c, (jsTrim l).getLast? = some c → isJsWS c = false := by
  intro c hc
  unfold jsTrim at hc
  rw [List.getLast?_reverse] at hc
  exact head?_dropWhile_false _ _ _ hc

lemma mem_jsTrim {l : List Char} {c : Char} (h : c ∈ jsTrim l) : c ∈ l := by
  unfold jsTrim at h
  rw [List.mem_reverse] at h
  have h₁ := (List.dropWhile_sublist (l := (l.dropWhile isJsWS).reverse)
    (p := isJsWS)).subset h
  rw [List.mem_reverse] at h₁
  exact (List.dropWhile_sublist (l := l) (p := isJsWS)).subset h₁

lemma chain'_jsTrim {R : Char → Char → Prop} (hsymm : ∀ a b, R a b → R b a)
    {l : List Char} (h : l.Chain' R) : (jsTrim l).Chain' R := by
  unfold jsTrim
  have h₁ : (l.dropWhile isJsWS).Chain' R := h.suffix (List.dropWhile_suffix _)
  have h₂ : ((l.dropWhile isJsWS).reverse).Chain' R := by
    rw [List.chain'_reverse]
    exact h₁.imp (fun a b hab => hsymm a b hab)
  have h₃ : (((l.dropWhile isJsWS).reverse).dropWhile isJsWS).Chain' R :=
    h₂.suffix (List.dropWhile_suffix _)
  rw [List.chain'_reverse]
  exact h₃.imp (fun a b hab => hsymm a b hab)

lemma chain'_imp_mem {α : Type} {R S : α → α → Prop} :
    ∀ l : List α, (∀ a ∈ l, ∀ b ∈ l, R a b → S a b) → l.Chain' R → l.Chain' S := by
  intro l
  induction l with
  | nil => intro _ _; simp
  | cons a t ih =>
    intro h hch
    obtain ⟨hhead, htail⟩ := List.chain'_cons'.mp hch
    refine List.chain'_cons'.mpr ⟨?_, ?_⟩
    · intro y hy
      exact h a (by simp) y (List.mem_cons_of_mem a (List.mem_of_mem_head? hy))
        (hhead y hy)
    · exact ih (fun x hx b hb hr =>
        h x (List.mem_cons_of_mem a hx) b (List.mem_cons_of_mem a hb) hr) htail

/-- The shape of every `normalizeName` output: only lowercase
letters/digits/spaces, no two adjacent whitespace characters, and no leading
or trailing whitespace. -/
def Canon (l : List Char) : Prop :=
  (∀ c ∈ l, isAlnumLower c = true ∨ c = ' ') ∧
  l.Chain' (fun a b => ¬(isJsWS a = true ∧ isJsWS b = true)) ∧
  (∀ c, l.head? = some c → isJsWS c = false) ∧
  (∀ c, l.getLast? = some c → isJsWS c = false)

lemma normalizeName_canon (s : String) : Canon (normalizeName s).toList := by
  have htl : (normalizeName s).toList =
      jsTrim (collapseRuns isJsWS ' '
        (collapseRuns (fun c => !isAlnumLower c) ' '
          (ampToAnd (lowerStr (jsTrim (camelSplit s.toList)))))) := rfl
  set A := ampToAnd (lowerStr (jsTrim (camelSplit s.toList))) with hA
  set B := collapseRuns (fun c => !isAlnumLower c) ' ' A with hB
  set C := collapseRuns isJsWS ' ' B with hC
  have hcharsB : ∀ c ∈ B, isAlnumLower c = true ∨ c = ' ' := by
    intro c hc
    rcases mem_collapseRunsAux _ _ A false c hc with h | ⟨_, hp⟩
    · exact Or.inr h
    · exact Or.inl (by simpa using hp)
  have hcharsC : ∀ c ∈ C, isAlnumLower c = true ∨ c = ' ' := by
    intro c hc
    rcases mem_collapseRunsAux _ _ B false c hc with h | ⟨hm, _⟩
    · exact Or.inr h
    · exact hcharsB c hm
  have hchainC : C.Chain' (fun a b => ¬(isJsWS a = true ∧ isJsWS b = true)) :=
    collapseRunsAux_chain isJsWS ' ' B false
  rw [htl]
  refine ⟨?_, ?_, jsTrim_head C, jsTrim_getLast C⟩
  · intro c hc
    exact hcharsC c (mem_jsTrim hc)
  · refine chain'_jsTrim ?_ hchainC
    intro a b hab ⟨h₁, h₂⟩
    exact hab ⟨h₂, h₁⟩

lemma normalizeName_eq_self_of_canon (l : List Char) (h : Canon l) :
    normalizeName ⟨l⟩ = ⟨l⟩ := by
  obtain ⟨hchars, hchain, hhead, hlast⟩ := h
  have h₁ : camelSplit l = l :=
    camelSplit_eq_self l (fun c hc => canonChar_not_upper (hchars c hc))
  have h₂ : jsTrim l = l := jsTrim_eq_self l hhead hlast
  have h₃ : lowerStr l = l :=
    lowerStr_eq_self l (fun c hc => canonChar_not_upper (hchars c hc))
  have h₄ : ampToAnd l = l :=
    ampToAnd_eq_self l (fun c hc => canonChar_not_amp (hchars c hc))
  have h₅ : collapseRuns (fun c => !isAlnumLower c) ' ' l = l := by
    refine collapseRuns_eq_self _ _ l ?_ ?_
    · intro c hc hp
      simp only [Bool.not_eq_true'] at hp
      rcases hchars c hc with h | h
      · rw [h] at hp
        exact absurd hp (by simp)
      · exact h
    · refine chain'_imp_mem l ?_ hchain
      intro a ha b hb hr ⟨hpa, hpb⟩
      simp only [Bool.not_eq_true'] at hpa hpb
      have ha' : a = ' ' := by
        rcases hchars a ha with h | h
        · rw [h] at hpa; exact absurd hpa (by simp)
        · exact h
      have hb' : b = ' ' := by
        rcases hchars b hb with h | h
        · rw [h] at hpb; exact absurd hpb (by simp)
        · exact h
      exact hr ⟨by rw [ha']; decide, by rw [hb']; decide⟩
  have h₆ : collapseRuns isJsWS ' ' l = l := by
    refine collapseRuns_eq_self _ _ l ?_ hchain
    intro c hc hp
    exact canonChar_ws_eq_space (hchars c hc) hp
  show (⟨jsTrim (collapseRuns isJsWS ' '
      (collapseRuns (fun c => !isAlnumLower c) ' '
        (ampToAnd (lowerStr (jsTrim (camelSplit l))))))⟩ : String) = ⟨l⟩
  rw [h₁, h₂, h₃, h₄, h₅, h₆, h₂]

/-- C9: `normalizeName` is idempotent — its output contains only lowercase
letters, digits and single interior spaces, all of which every normalization
step leaves unchanged. -/
theorem claim_C9_normalize_idempotent (s : String) :
    normalizeName (normalizeName s) = normalizeName s := by
  have h := normalizeName_eq_self_of_canon (normalizeName s).toList
    (normalizeName_canon s)
  exact h

end MediaPortal
